import Mathlib

/-!
Verification of two RxJS operators against their implementation:

* `filter` (src/unnamed/part_000, `FilterSubscriber._next`): a stateless
  single-source operator with a per-subscription call counter.
* `sequenceEqual` (src/src/operator/sequenceEqual.ts,
  `SequenceEqualSubscriber` / `SequenceEqualCompareToSubscriber`): a
  dual-source buffered-comparison operator.

The embedding translates the subscriber classes into explicit state
machines.  A subscription's inputs are a merged schedule of notification
events from the two sources; each event is handled by a step function that
returns the successor state together with the notifications the coordinator
pushed into its destination during that step.

The `Subscriber` base class itself is not part of the excerpt.  Its
contract is modelled from the spec (section 4.2): once a terminal
notification (`error` or `complete`) has been delivered downstream, the
subscription chain is unsubscribed and every further incoming notification
is dropped without effect.  In the state machines below this is the
`stopped` flag: it becomes true exactly when a terminal notification is
emitted downstream, and a stopped coordinator ignores all further events.
-/

namespace Rx

/-- A downstream notification of the boolean-valued `sequenceEqual` output
observable: `destination.next(v)`, `destination.error(e)` or
`destination.complete()`. -/
inductive Notif (ε : Type) where
  | next (v : Bool)
  | error (e : ε)
  | complete
deriving DecidableEq

/-- One notification arriving at the `sequenceEqual` coordinator, tagged
with the source it came from.  `nextA`/`completeA`/`errorA` are the primary
source's notifications delivered to `SequenceEqualSubscriber`
(`_next`, `_complete`, `error`); `nextB`/`completeB`/`errorB` are the
secondary (`compareTo`) source's notifications, forwarded by
`SequenceEqualCompareToSubscriber` into `nextB`, `_complete` and `error`
of the coordinator. -/
inductive SEEvent (α ε : Type) where
  | nextA (v : α)
  | nextB (v : α)
  | completeA
  | completeB
  | errorA (e : ε)
  | errorB (e : ε)
deriving DecidableEq

/-- The mutable state of `SequenceEqualSubscriber`: the two FIFO buffers
`_a` and `_b`, the `_oneComplete` flag, and the `stopped` flag of the
Subscriber protocol (see the module comment: modelled from the spec, true
exactly once a terminal notification has been delivered downstream). -/
structure SEState (α : Type) where
  a : List α
  b : List α
  oneComplete : Bool
  stopped : Bool
deriving DecidableEq

/-- Initial coordinator state: `_a = []`, `_b = []`, `_oneComplete = false`. -/
def seInit {α : Type} : SEState α := ⟨[], [], false, false⟩

/-- One comparison of a popped pair, as performed inside `checkValues`:
with a configured comparator, `tryCatch(comparor)(a, b)` either returns a
boolean or captures a raised error (the `errorObject` sentinel), which we
model as `Except`; with no comparator, the default `a === b` equality is
used. -/
def evalCmp {α ε : Type} [DecidableEq α]
    (cmp : Option (α → α → Except ε Bool)) (x y : α) : Except ε Bool :=
  match cmp with
  | some c => c x y
  | none => Except.ok (decide (x = y))

/-- Result of one call to `checkValues`: the pairs the comparison was
evaluated on (in order), the notifications pushed into the destination,
and the final contents of the two buffers. -/
structure DrainRes (α ε : Type) where
  cmps : List (α × α)
  out : List (Notif ε)
  a : List α
  b : List α
deriving DecidableEq

/-- `SequenceEqualSubscriber.checkValues`: while both buffers are
non-empty, shift the oldest value from each and compare.  On a captured
comparator error, `destination.error` is called and — faithfully to the
source, which has no early return — the loop continues; on an unequal
pair, `emit(false)` pushes `next(false)` then `complete()` and likewise
the loop continues (it terminates because a buffer runs out). -/
def checkValues {α ε : Type} [DecidableEq α]
    (cmp : Option (α → α → Except ε Bool)) :
    List α → List α → DrainRes α ε
  | x :: xs, y :: ys =>
    let r := checkValues cmp xs ys
    match evalCmp cmp x y with
    | Except.error e => ⟨(x, y) :: r.cmps, Notif.error e :: r.out, r.a, r.b⟩
    | Except.ok true => ⟨(x, y) :: r.cmps, r.out, r.a, r.b⟩
    | Except.ok false =>
      ⟨(x, y) :: r.cmps, Notif.next false :: Notif.complete :: r.out, r.a, r.b⟩
  | xs, ys => ⟨[], [], xs, ys⟩

/-- A terminal notification: `error` or `complete`. -/
def isTerminal {ε : Type} : Notif ε → Bool
  | Notif.next _ => false
  | Notif.error _ => true
  | Notif.complete => true

/-- Whether a batch of notifications contains a terminal one (after which
the Subscriber protocol stops the subscription chain). -/
def hasTerminal {ε : Type} (l : List (Notif ε)) : Bool := l.any isTerminal

/-- Result of handling one event: successor state, notifications delivered
downstream, and the pairs the comparator/equality was evaluated on. -/
structure StepRes (α ε : Type) where
  state : SEState α
  out : List (Notif ε)
  cmps : List (α × α)
deriving DecidableEq

/-- One notification-handling step of the `sequenceEqual` coordinator.

* `nextA v` is `SequenceEqualSubscriber._next`: if `_oneComplete` and `_b`
  is empty, `emit(false)`; otherwise push onto `_a` and run `checkValues`.
* `nextB v` is `SequenceEqualSubscriber.nextB`: symmetric with `_a`.
* `completeA`/`completeB` both reach `SequenceEqualSubscriber._complete`
  (the compareTo-side subscriber forwards its completion there): if
  `_oneComplete`, `emit(_a.length === 0 && _b.length === 0)`; otherwise
  record `_oneComplete = true`.
* `errorA e`/`errorB e` both reach the coordinator's `error`, whose base
  behaviour forwards the error to the destination.

The outer `stopped` guard is the Subscriber protocol modelled from the
spec: a stopped coordinator drops every notification. -/
def seStep {α ε : Type} [DecidableEq α]
    (cmp : Option (α → α → Except ε Bool)) (s : SEState α) :
    SEEvent α ε → StepRes α ε
  | ev =>
    if s.stopped then ⟨s, [], []⟩
    else
      match ev with
      | SEEvent.nextA v =>
        if s.oneComplete && s.b.isEmpty then
          ⟨{ s with stopped := true }, [Notif.next false, Notif.complete], []⟩
        else
          let r := checkValues cmp (s.a ++ [v]) s.b
          ⟨{ s with a := r.a, b := r.b, stopped := hasTerminal r.out }, r.out, r.cmps⟩
      | SEEvent.nextB v =>
        if s.oneComplete && s.a.isEmpty then
          ⟨{ s with stopped := true }, [Notif.next false, Notif.complete], []⟩
        else
          let r := checkValues cmp s.a (s.b ++ [v])
          ⟨{ s with a := r.a, b := r.b, stopped := hasTerminal r.out }, r.out, r.cmps⟩
      | SEEvent.completeA =>
        if s.oneComplete then
          ⟨{ s with stopped := true },
            [Notif.next (s.a.isEmpty && s.b.isEmpty), Notif.complete], []⟩
        else
          ⟨{ s with oneComplete := true }, [], []⟩
      | SEEvent.completeB =>
        if s.oneComplete then
          ⟨{ s with stopped := true },
            [Notif.next (s.a.isEmpty && s.b.isEmpty), Notif.complete], []⟩
        else
          ⟨{ s with oneComplete := true }, [], []⟩
      | SEEvent.errorA e => ⟨{ s with stopped := true }, [Notif.error e], []⟩
      | SEEvent.errorB e => ⟨{ s with stopped := true }, [Notif.error e], []⟩

/-- Run the coordinator over a merged schedule of events, accumulating the
notifications delivered downstream and the compared pairs in order. -/
def seRun {α ε : Type} [DecidableEq α]
    (cmp : Option (α → α → Except ε Bool)) (s : SEState α) :
    List (SEEvent α ε) → StepRes α ε
  | [] => ⟨s, [], []⟩
  | ev :: evs =>
    let r := seStep cmp s ev
    let r2 := seRun cmp r.state evs
    ⟨r2.state, r.out ++ r2.out, r.cmps ++ r2.cmps⟩

/-- The interleaving-independent outcome of comparing two completed value
sequences: the first pair (in index order) whose comparison faults decides
an error; the first unequal pair decides `false`; if every aligned pair is
equal, equal lengths decide `true` and unequal lengths decide `false`. -/
def seqOutcome {α ε : Type} [DecidableEq α]
    (cmp : Option (α → α → Except ε Bool)) :
    List α → List α → List (Notif ε)
  | x :: xs, y :: ys =>
    match evalCmp cmp x y with
    | Except.error e => [Notif.error e]
    | Except.ok true => seqOutcome cmp xs ys
    | Except.ok false => [Notif.next false, Notif.complete]
  | [], [] => [Notif.next true, Notif.complete]
  | _, _ => [Notif.next false, Notif.complete]

/-- `Interleave l1 l2 l`: `l` is a merge of `l1` and `l2` preserving the
relative order within each of the two. -/
inductive Interleave {β : Type} : List β → List β → List β → Prop where
  | nil : Interleave [] [] []
  | cons_left {x : β} {xs ys zs : List β} :
      Interleave xs ys zs → Interleave (x :: xs) ys (x :: zs)
  | cons_right {y : β} {xs ys zs : List β} :
      Interleave xs ys zs → Interleave xs (y :: ys) (y :: zs)

/-- The event sequence of the primary source emitting the values `va` and
then completing. -/
def sourceA {α ε : Type} (va : List α) : List (SEEvent α ε) :=
  va.map SEEvent.nextA ++ [SEEvent.completeA]

/-- The event sequence of the secondary (`compareTo`) source emitting the
values `vb` and then completing. -/
def sourceB {α ε : Type} (vb : List α) : List (SEEvent α ε) :=
  vb.map SEEvent.nextB ++ [SEEvent.completeB]

/-- Remaining events of one source mid-run: nothing if its completion was
already consumed (`d = true`), otherwise its pending values followed by
its completion. -/
def remEv {α ε : Type} (d : Bool) (l : List (SEEvent α ε))
    (c : SEEvent α ε) : List (SEEvent α ε) :=
  if d then [] else l ++ [c]

/-- All compared pairs in a list were evaluated to `ok true` (no fault, no
mismatch). -/
def AllOk {α ε : Type} [DecidableEq α]
    (cmp : Option (α → α → Except ε Bool)) (l : List (α × α)) : Prop :=
  ∀ p ∈ l, evalCmp cmp p.1 p.2 = (Except.ok true : Except ε Bool)

/-- Invariant of every run of the `sequenceEqual` coordinator from its
initial state: at least one buffer is empty, and the delivered output is
either nothing (still collecting, all compared pairs were equal), or a
single boolean followed by completion, or a single error — with the
compared-pairs trace ending at the first faulting or mismatching pair. -/
def SEInv {α ε : Type} [DecidableEq α]
    (cmp : Option (α → α → Except ε Bool)) (r : StepRes α ε) : Prop :=
  (r.state.a = [] ∨ r.state.b = []) ∧
    ((r.state.stopped = false ∧ r.out = [] ∧ AllOk cmp r.cmps) ∨
      (r.state.stopped = true ∧
        (((∃ v, r.out = [Notif.next v, Notif.complete]) ∧
            (AllOk cmp r.cmps ∨
              ∃ pre x y, r.cmps = pre ++ [(x, y)] ∧ AllOk cmp pre ∧
                evalCmp cmp x y = Except.ok false ∧
                r.out = [Notif.next false, Notif.complete])) ∨
          (∃ e, r.out = [Notif.error e] ∧
            (AllOk cmp r.cmps ∨
              ∃ pre x y, r.cmps = pre ++ [(x, y)] ∧ AllOk cmp pre ∧
                evalCmp cmp x y = Except.error e)))))

/-- A downstream notification of the `filter` output observable. -/
inductive FNotif (α ε : Type) where
  | next (v : α)
  | error (e : ε)
  | complete
deriving DecidableEq

/-- `FilterSubscriber._next` over a finite upstream sequence, starting from
call counter `k` (`count` starts at 0 per subscription).  For each upstream
value the predicate is invoked with `(value, count++)` — the counter
advances on every upstream next, truthy or falsy.  If the predicate
raises, `destination.error(err)` is called and the subscriber is stopped:
no further values are processed, no further predicate invocations happen
and the counter no longer advances.  Upstream completion passes through
unchanged (base-class behaviour, per the spec).  Returns the delivered
notifications together with the list of `(value, index)` arguments the
predicate was invoked on, in order. -/
def filterRun {α ε : Type} (p : α → Nat → Except ε Bool) :
    List α → Nat → List (FNotif α ε) × List (α × Nat)
  | [], _ => ([FNotif.complete], [])
  | v :: vs, k =>
    match p v k with
    | Except.error e => ([FNotif.error e], [(v, k)])
    | Except.ok true =>
      let r := filterRun p vs (k + 1)
      (FNotif.next v :: r.1, (v, k) :: r.2)
    | Except.ok false =>
      let r := filterRun p vs (k + 1)
      (r.1, (v, k) :: r.2)

/-- Truthiness test of a non-faulting predicate result. -/
def isOkTrue {ε : Type} : Except ε Bool → Bool
  | Except.ok true => true
  | Except.ok false => false
  | Except.error _ => false

section Helpers

variable {α ε : Type} [DecidableEq α]

lemma seRun_stopped (cmp : Option (α → α → Except ε Bool)) :
    ∀ (evs : List (SEEvent α ε)) (s : SEState α), s.stopped = true →
      seRun cmp s evs = ⟨s, [], []⟩ := by
  intro evs
  induction evs with
  | nil => intro s _; rfl
  | cons ev evs ih =>
    intro s hs
    simp only [seRun, seStep, hs, if_pos]
    rw [ih s hs]
    rfl

lemma checkValues_nil_left (cmp : Option (α → α → Except ε Bool)) (ys : List α) :
    checkValues cmp [] ys = (⟨[], [], [], ys⟩ : DrainRes α ε) := by
  cases ys <;> rfl

lemma checkValues_nil_right (cmp : Option (α → α → Except ε Bool)) (xs : List α) :
    checkValues cmp xs [] = (⟨[], [], xs, []⟩ : DrainRes α ε) := by
  cases xs <;> rfl

lemma checkValues_cons (cmp : Option (α → α → Except ε Bool)) (x y : α)
    (xs ys : List α) :
    checkValues cmp (x :: xs) (y :: ys) =
      (let r : DrainRes α ε := checkValues cmp xs ys
       match evalCmp cmp x y with
       | Except.error e => ⟨(x, y) :: r.cmps, Notif.error e :: r.out, r.a, r.b⟩
       | Except.ok true => ⟨(x, y) :: r.cmps, r.out, r.a, r.b⟩
       | Except.ok false =>
         ⟨(x, y) :: r.cmps, Notif.next false :: Notif.complete :: r.out, r.a, r.b⟩) := rfl

lemma allOk_nil (cmp : Option (α → α → Except ε Bool)) : AllOk cmp [] := by
  intro p hp; cases hp

lemma allOk_append {cmp : Option (α → α → Except ε Bool)} {l1 l2 : List (α × α)}
    (h1 : AllOk cmp l1) (h2 : AllOk cmp l2) : AllOk cmp (l1 ++ l2) := by
  intro p hp
  rcases List.mem_append.1 hp with h | h
  · exact h1 p h
  · exact h2 p h

lemma allOk_single {α ε : Type} [DecidableEq α]
    {cmp : Option (α → α → Except ε Bool)} {x y : α}
    (h : evalCmp cmp x y = Except.ok true) : AllOk cmp [(x, y)] := by
  intro p hp
  rcases List.mem_singleton.1 hp with rfl
  exact h

end Helpers

section InvariantProofs

variable {α ε : Type} [DecidableEq α]

lemma seStep_inv (cmp : Option (α → α → Except ε Bool)) (s : SEState α)
    (ev : SEEvent α ε) (hstop : s.stopped = false) (hinv : s.a = [] ∨ s.b = []) :
    SEInv cmp (seStep cmp s ev) := by
  cases ev with
  | errorA e =>
    have hs : seStep cmp s (SEEvent.errorA e) =
        ⟨{ s with stopped := true }, [Notif.error e], []⟩ := by
      simp [seStep, hstop]
    rw [hs]
    exact ⟨hinv, Or.inr ⟨rfl, Or.inr ⟨e, rfl, Or.inl (allOk_nil cmp)⟩⟩⟩
  | errorB e =>
    have hs : seStep cmp s (SEEvent.errorB e) =
        ⟨{ s with stopped := true }, [Notif.error e], []⟩ := by
      simp [seStep, hstop]
    rw [hs]
    exact ⟨hinv, Or.inr ⟨rfl, Or.inr ⟨e, rfl, Or.inl (allOk_nil cmp)⟩⟩⟩
  | completeA =>
    cases honc : s.oneComplete with
    | true =>
      have hs : seStep cmp s SEEvent.completeA =
          ⟨{ s with stopped := true },
            [Notif.next (s.a.isEmpty && s.b.isEmpty), Notif.complete], []⟩ := by
        simp [seStep, hstop, honc]
      rw [hs]
      exact ⟨hinv, Or.inr ⟨rfl, Or.inl ⟨⟨_, rfl⟩, Or.inl (allOk_nil cmp)⟩⟩⟩
    | false =>
      have hs : seStep cmp s SEEvent.completeA =
          ⟨{ s with oneComplete := true }, [], []⟩ := by
        simp [seStep, hstop, honc]
      rw [hs]
      exact ⟨hinv, Or.inl ⟨hstop, rfl, allOk_nil cmp⟩⟩
  | completeB =>
    cases honc : s.oneComplete with
    | true =>
      have hs : seStep cmp s SEEvent.completeB =
          ⟨{ s with stopped := true },
            [Notif.next (s.a.isEmpty && s.b.isEmpty), Notif.complete], []⟩ := by
        simp [seStep, hstop, honc]
      rw [hs]
      exact ⟨hinv, Or.inr ⟨rfl, Or.inl ⟨⟨_, rfl⟩, Or.inl (allOk_nil cmp)⟩⟩⟩
    | false =>
      have hs : seStep cmp s SEEvent.completeB =
          ⟨{ s with oneComplete := true }, [], []⟩ := by
        simp [seStep, hstop, honc]
      rw [hs]
      exact ⟨hinv, Or.inl ⟨hstop, rfl, allOk_nil cmp⟩⟩
  | nextA v =>
    cases hg : s.oneComplete && s.b.isEmpty with
    | true =>
      have hs : seStep cmp s (SEEvent.nextA v) =
          ⟨{ s with stopped := true },
            [Notif.next false, Notif.complete], []⟩ := by
        simp only [seStep, hstop, Bool.false_eq_true, if_false, hg, if_true]
      rw [hs]
      exact ⟨hinv, Or.inr ⟨rfl, Or.inl ⟨⟨false, rfl⟩, Or.inl (allOk_nil cmp)⟩⟩⟩
    | false =>
      rcases hinv with ha | hb
      · cases hcb : s.b with
        | nil =>
          have honc : s.oneComplete = false := by simpa [hcb] using hg
          have hs : seStep cmp s (SEEvent.nextA v) =
              ⟨{ s with a := s.a ++ [v], b := [], stopped := false }, [], []⟩ := by
            simp [seStep, hstop, honc, hcb, checkValues_nil_right, hasTerminal]
          rw [hs]
          exact ⟨Or.inr rfl, Or.inl ⟨rfl, rfl, allOk_nil cmp⟩⟩
        | cons y ys =>
          have hchk : checkValues cmp (s.a ++ [v]) s.b =
              (checkValues cmp [v] (y :: ys) : DrainRes α ε) := by
            rw [ha, hcb]
            rfl
          cases heval : evalCmp cmp v y with
          | error e =>
            have hs : seStep cmp s (SEEvent.nextA v) =
                ⟨{ s with a := [], b := ys, stopped := true },
                  [Notif.error e], [(v, y)]⟩ := by
              simp [seStep, hstop, hg, hchk, checkValues, heval,
                checkValues_nil_left, hasTerminal, isTerminal]
            rw [hs]
            exact ⟨Or.inl rfl, Or.inr ⟨rfl, Or.inr ⟨e, rfl,
              Or.inr ⟨[], v, y, rfl, allOk_nil cmp, heval⟩⟩⟩⟩
          | ok bv =>
            cases bv with
            | true =>
              have hs : seStep cmp s (SEEvent.nextA v) =
                  ⟨{ s with a := [], b := ys, stopped := false },
                    [], [(v, y)]⟩ := by
                simp [seStep, hstop, hg, hchk, checkValues, heval,
                  checkValues_nil_left, hasTerminal, isTerminal]
              rw [hs]
              exact ⟨Or.inl rfl, Or.inl ⟨rfl, rfl, allOk_single heval⟩⟩
            | false =>
              have hs : seStep cmp s (SEEvent.nextA v) =
                  ⟨{ s with a := [], b := ys, stopped := true },
                    [Notif.next false, Notif.complete], [(v, y)]⟩ := by
                simp [seStep, hstop, hg, hchk, checkValues, heval,
                  checkValues_nil_left, hasTerminal, isTerminal]
              rw [hs]
              exact ⟨Or.inl rfl, Or.inr ⟨rfl, Or.inl ⟨⟨false, rfl⟩,
                Or.inr ⟨[], v, y, rfl, allOk_nil cmp, heval, rfl⟩⟩⟩⟩
      · have honc : s.oneComplete = false := by simpa [hb] using hg
        have hs : seStep cmp s (SEEvent.nextA v) =
            ⟨{ s with a := s.a ++ [v], b := [], stopped := false }, [], []⟩ := by
          simp [seStep, hstop, honc, hb, checkValues_nil_right, hasTerminal]
        rw [hs]
        exact ⟨Or.inr rfl, Or.inl ⟨rfl, rfl, allOk_nil cmp⟩⟩
  | nextB v =>
    cases hg : s.oneComplete && s.a.isEmpty with
    | true =>
      have hs : seStep cmp s (SEEvent.nextB v) =
          ⟨{ s with stopped := true },
            [Notif.next false, Notif.complete], []⟩ := by
        simp only [seStep, hstop, Bool.false_eq_true, if_false, hg, if_true]
      rw [hs]
      exact ⟨hinv, Or.inr ⟨rfl, Or.inl ⟨⟨false, rfl⟩, Or.inl (allOk_nil cmp)⟩⟩⟩
    | false =>
      rcases hinv with ha | hb
      · cases hca : s.a with
        | nil =>
          have honc : s.oneComplete = false := by simpa [hca] using hg
          have hs : seStep cmp s (SEEvent.nextB v) =
              ⟨{ s with a := [], b := s.b ++ [v], stopped := false }, [], []⟩ := by
            simp [seStep, hstop, honc, ha, checkValues_nil_left, hasTerminal]
          rw [hs]
          exact ⟨Or.inl rfl, Or.inl ⟨rfl, rfl, allOk_nil cmp⟩⟩
        | cons x xs =>
          exact absurd ha (by simp [hca])
      · cases hca : s.a with
        | nil =>
          have honc : s.oneComplete = false := by simpa [hca] using hg
          have hs : seStep cmp s (SEEvent.nextB v) =
              ⟨{ s with a := [], b := s.b ++ [v], stopped := false }, [], []⟩ := by
            simp [seStep, hstop, honc, hca, checkValues_nil_left, hasTerminal]
          rw [hs]
          exact ⟨Or.inl rfl, Or.inl ⟨rfl, rfl, allOk_nil cmp⟩⟩
        | cons x xs =>
          have hchk : checkValues cmp s.a (s.b ++ [v]) =
              (checkValues cmp (x :: xs) [v] : DrainRes α ε) := by
            rw [hca, hb]
            rfl
          cases heval : evalCmp cmp x v with
          | error e =>
            have hs : seStep cmp s (SEEvent.nextB v) =
                ⟨{ s with a := xs, b := [], stopped := true },
                  [Notif.error e], [(x, v)]⟩ := by
              simp [seStep, hstop, hg, hchk, checkValues, heval,
                checkValues_nil_right, hasTerminal, isTerminal]
            rw [hs]
            exact ⟨Or.inr rfl, Or.inr ⟨rfl, Or.inr ⟨e, rfl,
              Or.inr ⟨[], x, v, rfl, allOk_nil cmp, heval⟩⟩⟩⟩
          | ok bv =>
            cases bv with
            | true =>
              have hs : seStep cmp s (SEEvent.nextB v) =
                  ⟨{ s with a := xs, b := [], stopped := false },
                    [], [(x, v)]⟩ := by
                simp [seStep, hstop, hg, hchk, checkValues, heval,
                  checkValues_nil_right, hasTerminal, isTerminal]
              rw [hs]
              exact ⟨Or.inr rfl, Or.inl ⟨rfl, rfl, allOk_single heval⟩⟩
            | false =>
              have hs : seStep cmp s (SEEvent.nextB v) =
                  ⟨{ s with a := xs, b := [], stopped := true },
                    [Notif.next false, Notif.complete], [(x, v)]⟩ := by
                simp [seStep, hstop, hg, hchk, checkValues, heval,
                  checkValues_nil_right, hasTerminal, isTerminal]
              rw [hs]
              exact ⟨Or.inr rfl, Or.inr ⟨rfl, Or.inl ⟨⟨false, rfl⟩,
                Or.inr ⟨[], x, v, rfl, allOk_nil cmp, heval, rfl⟩⟩⟩⟩

lemma seRun_inv (cmp : Option (α → α → Except ε Bool)) :
    ∀ (evs : List (SEEvent α ε)) (s : SEState α),
      s.stopped = false → (s.a = [] ∨ s.b = []) →
      SEInv cmp (seRun cmp s evs) := by
  intro evs
  induction evs with
  | nil =>
    intro s hstop hinv
    exact ⟨hinv, Or.inl ⟨hstop, rfl, allOk_nil cmp⟩⟩
  | cons ev evs ih =>
    intro s hstop hinv
    have h1 := seStep_inv cmp s ev hstop hinv
    rcases h1 with ⟨hbuf1, h1⟩
    rcases h1 with ⟨hs1, hout1, hok1⟩ | ⟨hs1, hsh1⟩
    · have h2 := ih (seStep cmp s ev).state hs1 hbuf1
      rcases h2 with ⟨hbuf2, h2⟩
      show SEInv cmp ⟨(seRun cmp (seStep cmp s ev).state evs).state,
        (seStep cmp s ev).out ++ (seRun cmp (seStep cmp s ev).state evs).out,
        (seStep cmp s ev).cmps ++ (seRun cmp (seStep cmp s ev).state evs).cmps⟩
      refine ⟨hbuf2, ?_⟩
      rw [hout1]
      rcases h2 with ⟨hs2, hout2, hok2⟩ | ⟨hs2, hsh2⟩
      · exact Or.inl ⟨hs2, by simpa using hout2, allOk_append hok1 hok2⟩
      · refine Or.inr ⟨hs2, ?_⟩
        rcases hsh2 with ⟨⟨v, hout2⟩, hca⟩ | ⟨e, hout2, hca⟩
        · refine Or.inl ⟨⟨v, by simpa using hout2⟩, ?_⟩
          rcases hca with hca | ⟨pre, x, y, hcm, hpre, hxy, hout3⟩
          · exact Or.inl (allOk_append hok1 hca)
          · exact Or.inr ⟨(seStep cmp s ev).cmps ++ pre, x, y,
              by rw [hcm, List.append_assoc], allOk_append hok1 hpre, hxy,
              by simpa using hout3⟩
        · refine Or.inr ⟨e, by simpa using hout2, ?_⟩
          rcases hca with hca | ⟨pre, x, y, hcm, hpre, hxy⟩
          · exact Or.inl (allOk_append hok1 hca)
          · exact Or.inr ⟨(seStep cmp s ev).cmps ++ pre, x, y,
              by rw [hcm, List.append_assoc], allOk_append hok1 hpre, hxy⟩
    · have h2 : seRun cmp (seStep cmp s ev).state evs =
          ⟨(seStep cmp s ev).state, [], []⟩ :=
        seRun_stopped cmp evs (seStep cmp s ev).state hs1
      show SEInv cmp ⟨(seRun cmp (seStep cmp s ev).state evs).state,
        (seStep cmp s ev).out ++ (seRun cmp (seStep cmp s ev).state evs).out,
        (seStep cmp s ev).cmps ++ (seRun cmp (seStep cmp s ev).state evs).cmps⟩
      rw [h2]
      simp only [List.append_nil]
      exact ⟨hbuf1, Or.inr ⟨hs1, hsh1⟩⟩

lemma get?_concat_cases {γ : Type} {l : List γ} {q p : γ} {i : Nat}
    (h : (l ++ [q]).get? i = some p) : p ∈ l ∨ (i = l.length ∧ p = q) := by
  rcases Nat.lt_or_ge i l.length with hi | hi
  · left
    rw [List.get?_append hi] at h
    exact List.get?_mem h
  · right
    rw [List.get?_append_right hi] at h
    have hlt : i - l.length < 1 := by
      by_contra hge
      rw [List.get?_eq_none.2 (by simpa using Nat.le_of_not_lt hge)] at h
      cases h
    have h0 : i - l.length = 0 := by omega
    rw [h0] at h
    have hp : p = q := by
      simpa using h.symm
    exact ⟨by omega, hp⟩

end InvariantProofs

section RunTheorems

variable {α ε : Type} [DecidableEq α]

/-- C10: after every notification-handling operation of the `sequenceEqual`
coordinator returns — i.e. after running any merged schedule of events
from the initial state — at least one of the two internal buffers is
empty: the drain loop always runs until one buffer is exhausted, so the
two buffers are never simultaneously non-empty between notifications. -/
theorem sequenceEqual_one_buffer_empty (cmp : Option (α → α → Except ε Bool))
    (evs : List (SEEvent α ε)) :
    (seRun cmp seInit evs).state.a = [] ∨ (seRun cmp seInit evs).state.b = [] :=
  (seRun_inv cmp evs seInit rfl (Or.inl rfl)).1

/-- C5: over every input pair of sequences and every schedule of
notifications (any event list whatsoever), the `sequenceEqual` output
delivers exactly zero or one boolean value, and a completion notification
exactly when a boolean was determined: the delivered output is nothing, or
one boolean followed by completion, or a single error — never a second
value and never a completion without a value. -/
theorem sequenceEqual_output_cardinality (cmp : Option (α → α → Except ε Bool))
    (evs : List (SEEvent α ε)) :
    (seRun cmp seInit evs).out = [] ∨
    (∃ v, (seRun cmp seInit evs).out = [Notif.next v, Notif.complete]) ∨
    (∃ e, (seRun cmp seInit evs).out = [Notif.error e]) := by
  have h := seRun_inv cmp evs seInit rfl (Or.inl rfl)
  rcases h.2 with ⟨_, hout, _⟩ | ⟨_, hsh⟩
  · exact Or.inl hout
  · rcases hsh with ⟨⟨v, hout⟩, _⟩ | ⟨e, hout, _⟩
    · exact Or.inr (Or.inl ⟨v, hout⟩)
    · exact Or.inr (Or.inr ⟨e, hout⟩)

/-- C1: if during a run from the initial state the drain step pops a pair
`(x, y)` whose comparison evaluates to `false` (the `i`-th compared pair),
then that pair is the last pair ever compared in the run — the
comparator/equality is not evaluated on any pair after the first
mismatching pair — and the delivered output is exactly `next(false)`
followed by `complete`, with the coordinator in the terminal (stopped,
Decided) state; remaining buffered values are never compared. -/
theorem sequenceEqual_mismatch_short_circuit
    (cmp : Option (α → α → Except ε Bool)) (evs : List (SEEvent α ε))
    (i : Nat) (x y : α)
    (hget : (seRun cmp seInit evs).cmps.get? i = some (x, y))
    (hm : evalCmp cmp x y = Except.ok false) :
    (seRun cmp seInit evs).cmps.length = i + 1 ∧
    (seRun cmp seInit evs).out = [Notif.next false, Notif.complete] ∧
    (seRun cmp seInit evs).state.stopped = true := by
  have hrun := seRun_inv cmp evs seInit rfl (Or.inl rfl)
  rcases hrun.2 with ⟨_, _, hok⟩ | ⟨hs, hsh⟩
  · have := hok (x, y) (List.get?_mem hget)
    rw [hm] at this
    cases this
  · rcases hsh with ⟨⟨v, hout⟩, hca⟩ | ⟨e, hout, hca⟩
    · rcases hca with hca | ⟨pre, x', y', hcm, hpre, hxy, hout2⟩
      · have := hca (x, y) (List.get?_mem hget)
        rw [hm] at this
        cases this
      · rw [hcm] at hget
        rcases get?_concat_cases hget with hmem | ⟨hi, hpq⟩
        · have := hpre (x, y) hmem
          rw [hm] at this
          cases this
        · refine ⟨?_, hout2, hs⟩
          rw [hcm, List.length_append, List.length_singleton, hi]
    · rcases hca with hca | ⟨pre, x', y', hcm, hpre, hxy⟩
      · have := hca (x, y) (List.get?_mem hget)
        rw [hm] at this
        cases this
      · rw [hcm] at hget
        rcases get?_concat_cases hget with hmem | ⟨hi, hpq⟩
        · have := hpre (x, y) hmem
          rw [hm] at this
          cases this
        · have hpq2 : (x, y) = (x', y') := hpq
          have : evalCmp cmp x y = Except.error e := by
            rw [show x = x' from congrArg Prod.fst hpq2,
              show y = y' from congrArg Prod.snd hpq2]
            exact hxy
          rw [hm] at this
          cases this

/-- C3: if during a run from the initial state the configured comparator
raises (`Except.error e`) on the `i`-th compared pair `(x, y)`, that pair
is the last pair ever compared, the captured error is delivered downstream
as the sole notification — an error notification, no boolean result — and
the coordinator stops. -/
theorem sequenceEqual_comparator_fault_propagates
    (cmp : Option (α → α → Except ε Bool)) (evs : List (SEEvent α ε))
    (i : Nat) (x y : α) (e : ε)
    (hget : (seRun cmp seInit evs).cmps.get? i = some (x, y))
    (hm : evalCmp cmp x y = Except.error e) :
    (seRun cmp seInit evs).cmps.length = i + 1 ∧
    (seRun cmp seInit evs).out = [Notif.error e] ∧
    (seRun cmp seInit evs).state.stopped = true := by
  have hrun := seRun_inv cmp evs seInit rfl (Or.inl rfl)
  rcases hrun.2 with ⟨_, _, hok⟩ | ⟨hs, hsh⟩
  · have := hok (x, y) (List.get?_mem hget)
    rw [hm] at this
    cases this
  · rcases hsh with ⟨⟨v, hout⟩, hca⟩ | ⟨e', hout, hca⟩
    · rcases hca with hca | ⟨pre, x', y', hcm, hpre, hxy, hout2⟩
      · have := hca (x, y) (List.get?_mem hget)
        rw [hm] at this
        cases this
      · rw [hcm] at hget
        rcases get?_concat_cases hget with hmem | ⟨hi, hpq⟩
        · have := hpre (x, y) hmem
          rw [hm] at this
          cases this
        · have hpq2 : (x, y) = (x', y') := hpq
          have : evalCmp cmp x y = Except.ok false := by
            rw [show x = x' from congrArg Prod.fst hpq2,
              show y = y' from congrArg Prod.snd hpq2]
            exact hxy
          rw [hm] at this
          cases this
    · rcases hca with hca | ⟨pre, x', y', hcm, hpre, hxy⟩
      · have := hca (x, y) (List.get?_mem hget)
        rw [hm] at this
        cases this
      · rw [hcm] at hget
        rcases get?_concat_cases hget with hmem | ⟨hi, hpq⟩
        · have := hpre (x, y) hmem
          rw [hm] at this
          cases this
        · have hpq2 : (x, y) = (x', y') := hpq
          have hee : evalCmp cmp x y = Except.error e' := by
            rw [show x = x' from congrArg Prod.fst hpq2,
              show y = y' from congrArg Prod.snd hpq2]
            exact hxy
          rw [hm] at hee
          have he : e' = e := by
            cases hee
            rfl
          refine ⟨?_, ?_, hs⟩
          · rw [hcm, List.length_append, List.length_singleton, hi]
          · rw [hout, he]

end RunTheorems

section InterleavingProofs

variable {α ε : Type} [DecidableEq α]

lemma interleave_nil_inv {β : Type} {l1 l2 : List β}
    (h : Interleave l1 l2 []) : l1 = [] ∧ l2 = [] := by
  cases h
  exact ⟨rfl, rfl⟩

lemma interleave_cons_inv {β : Type} {l1 l2 zs : List β} {z : β}
    (h : Interleave l1 l2 (z :: zs)) :
    (∃ l1', l1 = z :: l1' ∧ Interleave l1' l2 zs) ∨
    (∃ l2', l2 = z :: l2' ∧ Interleave l1 l2' zs) := by
  cases h with
  | cons_left h2 => exact Or.inl ⟨_, rfl, h2⟩
  | cons_right h2 => exact Or.inr ⟨_, rfl, h2⟩

lemma seqOutcome_nil_right {cmp : Option (α → α → Except ε Bool)}
    {l : List α} (h : l ≠ []) :
    seqOutcome cmp l [] = ([Notif.next false, Notif.complete] : List (Notif ε)) := by
  cases l with
  | nil => exact absurd rfl h
  | cons x xs => rfl

lemma seqOutcome_nil_left {cmp : Option (α → α → Except ε Bool)}
    {l : List α} (h : l ≠ []) :
    seqOutcome cmp [] l = ([Notif.next false, Notif.complete] : List (Notif ε)) := by
  cases l with
  | nil => exact absurd rfl h
  | cons y ys => rfl

lemma seqOutcome_cons_ok_true {cmp : Option (α → α → Except ε Bool)}
    {x y : α} {xs ys : List α} (h : evalCmp cmp x y = Except.ok true) :
    seqOutcome cmp (x :: xs) (y :: ys) = (seqOutcome cmp xs ys : List (Notif ε)) := by
  simp [seqOutcome, h]

lemma seqOutcome_cons_ok_false {cmp : Option (α → α → Except ε Bool)}
    {x y : α} {xs ys : List α} (h : evalCmp cmp x y = Except.ok false) :
    seqOutcome cmp (x :: xs) (y :: ys) =
      ([Notif.next false, Notif.complete] : List (Notif ε)) := by
  simp [seqOutcome, h]

lemma seqOutcome_cons_error {cmp : Option (α → α → Except ε Bool)}
    {x y : α} {xs ys : List α} {e : ε} (h : evalCmp cmp x y = Except.error e) :
    seqOutcome cmp (x :: xs) (y :: ys) = ([Notif.error e] : List (Notif ε)) := by
  simp [seqOutcome, h]

lemma seRun_char (cmp : Option (α → α → Except ε Bool)) :
    ∀ (zs : List (SEEvent α ε)) (va vb : List α) (dA dB : Bool) (s : SEState α),
      Interleave (remEv dA (va.map SEEvent.nextA) SEEvent.completeA)
                 (remEv dB (vb.map SEEvent.nextB) SEEvent.completeB) zs →
      s.stopped = false → s.oneComplete = (dA || dB) → (dA && dB) = false →
      (dA = true → va = []) → (dB = true → vb = []) →
      (s.a = [] ∨ s.b = []) →
      (seRun cmp s zs).out = seqOutcome cmp (s.a ++ va) (s.b ++ vb) := by
  intro zs
  induction zs with
  | nil =>
    intro va vb dA dB s hI hstop hone hd hA hB hbuf
    obtain ⟨h1, h2⟩ := interleave_nil_inv hI
    cases dA with
    | false => simp [remEv] at h1
    | true =>
      cases dB with
      | false => simp [remEv] at h2
      | true => simp at hd
  | cons z zs ih =>
    intro va vb dA dB s hI hstop hone hd hA hB hbuf
    rcases interleave_cons_inv hI with ⟨l1', hl1, hI'⟩ | ⟨l2', hl2, hI'⟩
    · -- the event comes from the primary source
      cases dA with
      | true => simp [remEv] at hl1
      | false =>
        cases va with
        | nil =>
          -- z = completeA
          rw [remEv, if_neg (by simp)] at hl1
          simp only [List.map_nil, List.nil_append, List.cons.injEq] at hl1
          obtain ⟨hz, hl⟩ := hl1
          subst hz
          subst hl
          simp only [Bool.false_or] at hone
          cases dB with
          | false =>
            -- first completion: record oneComplete
            have honc : s.oneComplete = false := hone
            have hs : seStep cmp s SEEvent.completeA =
                ⟨{ s with oneComplete := true }, [], []⟩ := by
              simp [seStep, hstop, honc]
            simp only [seRun, hs, List.nil_append]
            have hrec := ih [] vb true false { s with oneComplete := true }
              (by simpa [remEv] using hI') hstop rfl rfl (fun _ => rfl) (by simp) hbuf
            simpa using hrec
          | true =>
            -- second completion: finalize
            have hvb : vb = [] := hB rfl
            subst hvb
            have honc : s.oneComplete = true := hone
            have hs : seStep cmp s SEEvent.completeA =
                ⟨{ s with stopped := true },
                  [Notif.next (s.a.isEmpty && s.b.isEmpty), Notif.complete], []⟩ := by
              simp [seStep, hstop, honc]
            simp only [seRun, hs]
            rw [seRun_stopped cmp zs { s with stopped := true } rfl]
            rcases hbuf with ha | hb
            · cases hcb : s.b with
              | nil => simp [ha, hcb, seqOutcome]
              | cons y ys => simp [ha, hcb, seqOutcome]
            · cases hca : s.a with
              | nil => simp [hca, hb, seqOutcome]
              | cons x xs => simp [hca, hb, seqOutcome]
        | cons v va2 =>
          -- z = nextA v
          rw [remEv, if_neg (by simp)] at hl1
          simp only [List.map_cons, List.cons_append, List.cons.injEq] at hl1
          obtain ⟨hz, hl⟩ := hl1
          subst hz
          subst hl
          cases dB with
          | true =>
            -- secondary already completed
            have hvb : vb = [] := hB rfl
            subst hvb
            have honc : s.oneComplete = true := by simpa using hone
            cases hcb : s.b with
            | nil =>
              -- can never match: emit false
              have hs : seStep cmp s (SEEvent.nextA v) =
                  ⟨{ s with stopped := true },
                    [Notif.next false, Notif.complete], []⟩ := by
                simp [seStep, hstop, honc, hcb]
              simp only [seRun, hs]
              rw [seRun_stopped cmp zs { s with stopped := true } rfl]
              have hne : s.a ++ v :: va2 ≠ [] := by simp
              simp [hcb, seqOutcome_nil_right hne]
            | cons y ys =>
              have ha : s.a = [] := by
                rcases hbuf with ha | hb
                · exact ha
                · rw [hcb] at hb
                  cases hb
              have hg : (s.oneComplete && s.b.isEmpty) = false := by
                rw [honc, hcb]
                rfl
              have hchk : checkValues cmp (s.a ++ [v]) s.b =
                  (checkValues cmp [v] (y :: ys) : DrainRes α ε) := by
                rw [ha, hcb]
                rfl
              cases heval : evalCmp cmp v y with
              | error e =>
                have hs : seStep cmp s (SEEvent.nextA v) =
                    ⟨{ s with a := [], b := ys, stopped := true },
                      [Notif.error e], [(v, y)]⟩ := by
                  simp [seStep, hstop, hg, hchk, checkValues, heval,
                    checkValues_nil_left, hasTerminal, isTerminal]
                simp only [seRun, hs]
                rw [seRun_stopped cmp zs { s with a := [], b := ys, stopped := true } rfl]
                simp [ha, hcb, seqOutcome_cons_error heval]
              | ok bv =>
                cases bv with
                | true =>
                  have hs : seStep cmp s (SEEvent.nextA v) =
                      ⟨{ s with a := [], b := ys, stopped := false },
                        [], [(v, y)]⟩ := by
                    simp [seStep, hstop, hg, hchk, checkValues, heval,
                      checkValues_nil_left, hasTerminal, isTerminal]
                  simp only [seRun, hs, List.nil_append]
                  have hrec := ih va2 [] false true
                    { s with a := [], b := ys, stopped := false }
                    (by simpa [remEv] using hI') rfl (by simpa using honc)
                    rfl (by simp) (fun _ => rfl) (Or.inl rfl)
                  simp only [List.append_nil, List.nil_append] at hrec
                  simp [hrec, ha, hcb, seqOutcome_cons_ok_true heval]
                | false =>
                  have hs : seStep cmp s (SEEvent.nextA v) =
                      ⟨{ s with a := [], b := ys, stopped := true },
                        [Notif.next false, Notif.complete], [(v, y)]⟩ := by
                    simp [seStep, hstop, hg, hchk, checkValues, heval,
                      checkValues_nil_left, hasTerminal, isTerminal]
                  simp only [seRun, hs]
                  rw [seRun_stopped cmp zs
                    { s with a := [], b := ys, stopped := true } rfl]
                  simp [ha, hcb, seqOutcome_cons_ok_false heval]
          | false =>
            -- neither source has completed yet
            have honc : s.oneComplete = false := by simpa using hone
            rcases hbuf with ha | hb
            · cases hcb : s.b with
              | nil =>
                have hs : seStep cmp s (SEEvent.nextA v) =
                    ⟨{ s with a := s.a ++ [v], b := [], stopped := false },
                      [], []⟩ := by
                  simp [seStep, hstop, honc, hcb, checkValues_nil_right, hasTerminal]
                simp only [seRun, hs, List.nil_append]
                have hrec := ih va2 vb false false
                  { s with a := s.a ++ [v], b := [], stopped := false }
                  (by simpa [remEv] using hI') rfl (by simpa using honc)
                  rfl (by simp) (by simp) (Or.inr rfl)
                simp only [List.nil_append] at hrec
                simp at hrec
                simp [hrec, hcb]
              | cons y ys =>
                have hchk : checkValues cmp (s.a ++ [v]) s.b =
                    (checkValues cmp [v] (y :: ys) : DrainRes α ε) := by
                  rw [ha, hcb]
                  rfl
                cases heval : evalCmp cmp v y with
                | error e =>
                  have hs : seStep cmp s (SEEvent.nextA v) =
                      ⟨{ s with a := [], b := ys, stopped := true },
                        [Notif.error e], [(v, y)]⟩ := by
                    simp [seStep, hstop, honc, hchk, checkValues, heval,
                      checkValues_nil_left, hasTerminal, isTerminal]
                  simp only [seRun, hs]
                  rw [seRun_stopped cmp zs
                    { s with a := [], b := ys, stopped := true } rfl]
                  simp [ha, hcb, seqOutcome_cons_error heval]
                | ok bv =>
                  cases bv with
                  | true =>
                    have hs : seStep cmp s (SEEvent.nextA v) =
                        ⟨{ s with a := [], b := ys, stopped := false },
                          [], [(v, y)]⟩ := by
                      simp [seStep, hstop, honc, hchk, checkValues, heval,
                        checkValues_nil_left, hasTerminal, isTerminal]
                    simp only [seRun, hs, List.nil_append]
                    have hrec := ih va2 vb false false
                      { s with a := [], b := ys, stopped := false }
                      (by simpa [remEv] using hI') rfl (by simpa using honc)
                      rfl (by simp) (by simp) (Or.inl rfl)
                    simp at hrec
                    simp [hrec, ha, hcb, seqOutcome_cons_ok_true heval]
                  | false =>
                    have hs : seStep cmp s (SEEvent.nextA v) =
                        ⟨{ s with a := [], b := ys, stopped := true },
                          [Notif.next false, Notif.complete], [(v, y)]⟩ := by
                      simp [seStep, hstop, honc, hchk, checkValues, heval,
                        checkValues_nil_left, hasTerminal, isTerminal]
                    simp only [seRun, hs]
                    rw [seRun_stopped cmp zs
                      { s with a := [], b := ys, stopped := true } rfl]
                    simp [ha, hcb, seqOutcome_cons_ok_false heval]
            · have hs : seStep cmp s (SEEvent.nextA v) =
                  ⟨{ s with a := s.a ++ [v], b := [], stopped := false },
                    [], []⟩ := by
                simp [seStep, hstop, honc, hb, checkValues_nil_right, hasTerminal]
              simp only [seRun, hs, List.nil_append]
              have hrec := ih va2 vb false false
                { s with a := s.a ++ [v], b := [], stopped := false }
                (by simpa [remEv] using hI') rfl (by simpa using honc)
                rfl (by simp) (by simp) (Or.inr rfl)
              simp at hrec
              simp [hrec, hb]
    · -- the event comes from the secondary source
      cases dB with
      | true => simp [remEv] at hl2
      | false =>
        cases vb with
        | nil =>
          -- z = completeB
          rw [remEv, if_neg (by simp)] at hl2
          simp only [List.map_nil, List.nil_append, List.cons.injEq] at hl2
          obtain ⟨hz, hl⟩ := hl2
          subst hz
          subst hl
          simp only [Bool.or_false] at hone
          cases dA with
          | false =>
            have honc : s.oneComplete = false := hone
            have hs : seStep cmp s SEEvent.completeB =
                ⟨{ s with oneComplete := true }, [], []⟩ := by
              simp [seStep, hstop, honc]
            simp only [seRun, hs, List.nil_append]
            have hrec := ih va [] false true { s with oneComplete := true }
              (by simpa [remEv] using hI') hstop rfl rfl (by simp) (fun _ => rfl) hbuf
            simpa using hrec
          | true =>
            have hva : va = [] := hA rfl
            subst hva
            have honc : s.oneComplete = true := hone
            have hs : seStep cmp s SEEvent.completeB =
                ⟨{ s with stopped := true },
                  [Notif.next (s.a.isEmpty && s.b.isEmpty), Notif.complete], []⟩ := by
              simp [seStep, hstop, honc]
            simp only [seRun, hs]
            rw [seRun_stopped cmp zs { s with stopped := true } rfl]
            rcases hbuf with ha | hb
            · cases hcb : s.b with
              | nil => simp [ha, hcb, seqOutcome]
              | cons y ys => simp [ha, hcb, seqOutcome]
            · cases hca : s.a with
              | nil => simp [hca, hb, seqOutcome]
              | cons x xs => simp [hca, hb, seqOutcome]
        | cons v vb2 =>
          -- z = nextB v
          rw [remEv, if_neg (by simp)] at hl2
          simp only [List.map_cons, List.cons_append, List.cons.injEq] at hl2
          obtain ⟨hz, hl⟩ := hl2
          subst hz
          subst hl
          cases dA with
          | true =>
            -- primary already completed
            have hva : va = [] := hA rfl
            subst hva
            have honc : s.oneComplete = true := by simpa using hone
            cases hca : s.a with
            | nil =>
              have hs : seStep cmp s (SEEvent.nextB v) =
                  ⟨{ s with stopped := true },
                    [Notif.next false, Notif.complete], []⟩ := by
                simp [seStep, hstop, honc, hca]
              simp only [seRun, hs]
              rw [seRun_stopped cmp zs { s with stopped := true } rfl]
              have hne : s.b ++ v :: vb2 ≠ [] := by simp
              simp [hca, seqOutcome_nil_left hne]
            | cons x xs =>
              have hb : s.b = [] := by
                rcases hbuf with ha | hb
                · rw [hca] at ha
                  cases ha
                · exact hb
              have hg : (s.oneComplete && s.a.isEmpty) = false := by
                rw [honc, hca]
                rfl
              have hchk : checkValues cmp s.a (s.b ++ [v]) =
                  (checkValues cmp (x :: xs) [v] : DrainRes α ε) := by
                rw [hca, hb]
                rfl
              cases heval : evalCmp cmp x v with
              | error e =>
                have hs : seStep cmp s (SEEvent.nextB v) =
                    ⟨{ s with a := xs, b := [], stopped := true },
                      [Notif.error e], [(x, v)]⟩ := by
                  simp [seStep, hstop, hg, hchk, checkValues, heval,
                    checkValues_nil_right, hasTerminal, isTerminal]
                simp only [seRun, hs]
                rw [seRun_stopped cmp zs
                  { s with a := xs, b := [], stopped := true } rfl]
                simp [hca, hb, seqOutcome_cons_error heval]
              | ok bv =>
                cases bv with
                | true =>
                  have hs : seStep cmp s (SEEvent.nextB v) =
                      ⟨{ s with a := xs, b := [], stopped := false },
                        [], [(x, v)]⟩ := by
                    simp [seStep, hstop, hg, hchk, checkValues, heval,
                      checkValues_nil_right, hasTerminal, isTerminal]
                  simp only [seRun, hs, List.nil_append]
                  have hrec := ih [] vb2 true false
                    { s with a := xs, b := [], stopped := false }
                    (by simpa [remEv] using hI') rfl (by simpa using honc)
                    rfl (fun _ => rfl) (by simp) (Or.inr rfl)
                  simp only [List.append_nil, List.nil_append] at hrec
                  simp [hrec, hca, hb, seqOutcome_cons_ok_true heval]
                | false =>
                  have hs : seStep cmp s (SEEvent.nextB v) =
                      ⟨{ s with a := xs, b := [], stopped := true },
                        [Notif.next false, Notif.complete], [(x, v)]⟩ := by
                    simp [seStep, hstop, hg, hchk, checkValues, heval,
                      checkValues_nil_right, hasTerminal, isTerminal]
                  simp only [seRun, hs]
                  rw [seRun_stopped cmp zs
                    { s with a := xs, b := [], stopped := true } rfl]
                  simp [hca, hb, seqOutcome_cons_ok_false heval]
          | false =>
            have honc : s.oneComplete = false := by simpa using hone
            rcases hbuf with ha | hb
            · have hs : seStep cmp s (SEEvent.nextB v) =
                  ⟨{ s with a := [], b := s.b ++ [v], stopped := false },
                    [], []⟩ := by
                simp [seStep, hstop, honc, ha, checkValues_nil_left, hasTerminal]
              simp only [seRun, hs, List.nil_append]
              have hrec := ih va vb2 false false
                { s with a := [], b := s.b ++ [v], stopped := false }
                (by simpa [remEv] using hI') rfl (by simpa using honc)
                rfl (by simp) (by simp) (Or.inl rfl)
              simp at hrec
              simp [hrec, ha]
            · cases hca : s.a with
              | nil =>
                have hs : seStep cmp s (SEEvent.nextB v) =
                    ⟨{ s with a := [], b := s.b ++ [v], stopped := false },
                      [], []⟩ := by
                  simp [seStep, hstop, honc, hca, checkValues_nil_left, hasTerminal]
                simp only [seRun, hs, List.nil_append]
                have hrec := ih va vb2 false false
                  { s with a := [], b := s.b ++ [v], stopped := false }
                  (by simpa [remEv] using hI') rfl (by simpa using honc)
                  rfl (by simp) (by simp) (Or.inl rfl)
                simp at hrec
                simp [hrec, hca]
              | cons x xs =>
                have hchk : checkValues cmp s.a (s.b ++ [v]) =
                    (checkValues cmp (x :: xs) [v] : DrainRes α ε) := by
                  rw [hca, hb]
                  rfl
                cases heval : evalCmp cmp x v with
                | error e =>
                  have hs : seStep cmp s (SEEvent.nextB v) =
                      ⟨{ s with a := xs, b := [], stopped := true },
                        [Notif.error e], [(x, v)]⟩ := by
                    simp [seStep, hstop, honc, hchk, checkValues, heval,
                      checkValues_nil_right, hasTerminal, isTerminal]
                  simp only [seRun, hs]
                  rw [seRun_stopped cmp zs
                    { s with a := xs, b := [], stopped := true } rfl]
                  simp [hca, hb, seqOutcome_cons_error heval]
                | ok bv =>
                  cases bv with
                  | true =>
                    have hs : seStep cmp s (SEEvent.nextB v) =
                        ⟨{ s with a := xs, b := [], stopped := false },
                          [], [(x, v)]⟩ := by
                      simp [seStep, hstop, honc, hchk, checkValues, heval,
                        checkValues_nil_right, hasTerminal, isTerminal]
                    simp only [seRun, hs, List.nil_append]
                    have hrec := ih va vb2 false false
                      { s with a := xs, b := [], stopped := false }
                      (by simpa [remEv] using hI') rfl (by simpa using honc)
                      rfl (by simp) (by simp) (Or.inr rfl)
                    simp at hrec
                    simp [hrec, hca, hb, seqOutcome_cons_ok_true heval]
                  | false =>
                    have hs : seStep cmp s (SEEvent.nextB v) =
                        ⟨{ s with a := xs, b := [], stopped := true },
                          [Notif.next false, Notif.complete], [(x, v)]⟩ := by
                      simp [seStep, hstop, honc, hchk, checkValues, heval,
                        checkValues_nil_right, hasTerminal, isTerminal]
                    simp only [seRun, hs]
                    rw [seRun_stopped cmp zs
                      { s with a := xs, b := [], stopped := true } rfl]
                    simp [hca, hb, seqOutcome_cons_ok_false heval]

end InterleavingProofs

/-- C6: given the same two logical value sequences (each followed by its
completion), every interleaving of the primary and secondary event
sequences delivers the identical downstream output — the same emitted
boolean (or error) and completion outcome regardless of the relative
arrival order of the two sources' notifications. -/
theorem sequenceEqual_interleaving_independent {α ε : Type} [DecidableEq α]
    (cmp : Option (α → α → Except ε Bool)) (va vb : List α)
    (zs1 zs2 : List (SEEvent α ε))
    (h1 : Interleave (sourceA va) (sourceB vb) zs1)
    (h2 : Interleave (sourceA va) (sourceB vb) zs2) :
    (seRun cmp seInit zs1).out = (seRun cmp seInit zs2).out := by
  have c1 := seRun_char cmp zs1 va vb false false seInit
    (by simpa [sourceA, sourceB, remEv] using h1) rfl rfl rfl
    (by simp) (by simp) (Or.inl rfl)
  have c2 := seRun_char cmp zs2 va vb false false seInit
    (by simpa [sourceA, sourceB, remEv] using h2) rfl rfl rfl
    (by simp) (by simp) (Or.inl rfl)
  rw [c1, c2]

/-- Witness for `sequenceEqual_interleaving_independent`: the sequences
`[1]` and `[1]` under two different interleavings (primary entirely first
versus secondary value first). -/
theorem sequenceEqual_interleaving_independent_witness :
    (seRun (none : Option (Nat → Nat → Except Nat Bool)) seInit
        [SEEvent.nextA 1, SEEvent.completeA, SEEvent.nextB 1,
          SEEvent.completeB]).out =
    (seRun (none : Option (Nat → Nat → Except Nat Bool)) seInit
        [SEEvent.nextB 1, SEEvent.nextA 1, SEEvent.completeB,
          SEEvent.completeA]).out :=
  sequenceEqual_interleaving_independent none [1] [1] _ _
    (Interleave.cons_left (Interleave.cons_left (Interleave.cons_right
      (Interleave.cons_right Interleave.nil))))
    (Interleave.cons_right (Interleave.cons_left (Interleave.cons_right
      (Interleave.cons_left Interleave.nil))))

/-- Witness for `sequenceEqual_mismatch_short_circuit`: default equality,
primary emits `1`, secondary emits `2`: the single compared pair `(1, 2)`
mismatches. -/
theorem sequenceEqual_mismatch_short_circuit_witness :
    (seRun (none : Option (Nat → Nat → Except Nat Bool)) seInit
        [SEEvent.nextA 1, SEEvent.nextB 2]).cmps.length = 0 + 1 ∧
    (seRun (none : Option (Nat → Nat → Except Nat Bool)) seInit
        [SEEvent.nextA 1, SEEvent.nextB 2]).out =
      [Notif.next false, Notif.complete] ∧
    (seRun (none : Option (Nat → Nat → Except Nat Bool)) seInit
        [SEEvent.nextA 1, SEEvent.nextB 2]).state.stopped = true :=
  sequenceEqual_mismatch_short_circuit none
    [SEEvent.nextA 1, SEEvent.nextB 2] 0 1 2 rfl rfl

/-- Witness for `sequenceEqual_comparator_fault_propagates`: a comparator
that always raises `9`, primary emits `1`, secondary emits `1`. -/
theorem sequenceEqual_comparator_fault_propagates_witness :
    (seRun (some (fun _ _ => Except.error 9) :
        Option (Nat → Nat → Except Nat Bool)) seInit
        [SEEvent.nextA 1, SEEvent.nextB 1]).cmps.length = 0 + 1 ∧
    (seRun (some (fun _ _ => Except.error 9) :
        Option (Nat → Nat → Except Nat Bool)) seInit
        [SEEvent.nextA 1, SEEvent.nextB 1]).out = [Notif.error 9] ∧
    (seRun (some (fun _ _ => Except.error 9) :
        Option (Nat → Nat → Except Nat Bool)) seInit
        [SEEvent.nextA 1, SEEvent.nextB 1]).state.stopped = true :=
  sequenceEqual_comparator_fault_propagates
    (some (fun _ _ => Except.error 9))
    [SEEvent.nextA 1, SEEvent.nextB 1] 0 1 1 9 rfl rfl

section FilterProofs

variable {α ε : Type}

lemma filterRun_total_aux (p : α → Nat → Bool) :
    ∀ (S : List α) (k : Nat),
      filterRun (fun v i => (Except.ok (p v i) : Except ε Bool)) S k =
        (((List.enumFrom k S).filter (fun vi => p vi.2 vi.1)).map
            (fun vi => FNotif.next vi.2) ++ [FNotif.complete],
         (List.enumFrom k S).map (fun vi => (vi.2, vi.1))) := by
  intro S
  induction S with
  | nil => intro k; rfl
  | cons v vs ih =>
    intro k
    by_cases hp : p v k
    · simp [filterRun, hp, List.enumFrom, ih (k + 1)]
    · simp [filterRun, hp, List.enumFrom, ih (k + 1)]

/-- C7: for every finite input sequence `S` and predicate `P`, the output
of the filter operator is exactly the subsequence of `S` consisting of the
elements on which `P` is truthy, in their original relative order; `P` is
invoked once per upstream value, with the value and a zero-based index
counting every upstream next since subscription; falsy values are dropped
with no effect on the output. -/
theorem filter_selects_truthy_subsequence (p : α → Nat → Bool) (S : List α) :
    filterRun (fun v i => (Except.ok (p v i) : Except ε Bool)) S 0 =
      ((S.enum.filter (fun vi => p vi.2 vi.1)).map
          (fun vi => FNotif.next vi.2) ++ [FNotif.complete],
       S.enum.map (fun vi => (vi.2, vi.1))) :=
  filterRun_total_aux p S 0

lemma filterRun_fault_aux (p : α → Nat → Except ε Bool) (v : α) (e : ε)
    (R : List α) :
    ∀ (T : List α) (k : Nat),
      p v (k + T.length) = Except.error e →
      (∀ vi ∈ List.enumFrom k T, ∃ b, p vi.2 vi.1 = Except.ok b) →
      filterRun p (T ++ v :: R) k =
        (((List.enumFrom k T).filter (fun vi => isOkTrue (p vi.2 vi.1))).map
            (fun vi => FNotif.next vi.2) ++ [FNotif.error e],
         (List.enumFrom k T).map (fun vi => (vi.2, vi.1)) ++ [(v, k + T.length)]) := by
  intro T
  induction T with
  | nil =>
    intro k hf _
    simp only [List.length_nil, Nat.add_zero] at hf
    simp [filterRun, hf, List.enumFrom]
  | cons t T ih =>
    intro k hf hpre
    have ht : ∃ b, p t k = Except.ok b := by
      refine hpre (k, t) ?_
      simp [List.enumFrom]
    obtain ⟨b, hb⟩ := ht
    have hf2 : p v (k + 1 + T.length) = Except.error e := by
      have : k + 1 + T.length = k + (t :: T).length := by
        simp [List.length_cons]; omega
      rw [this]; exact hf
    have hpre2 : ∀ vi ∈ List.enumFrom (k + 1) T, ∃ b, p vi.2 vi.1 = Except.ok b := by
      intro vi hvi
      refine hpre vi ?_
      simp [List.enumFrom, hvi]
    have hrec := ih (k + 1) hf2 hpre2
    have hlen : k + 1 + T.length = k + (t :: T).length := by
      simp [List.length_cons]; omega
    cases b with
    | true =>
      simp only [List.cons_append, filterRun, hb, List.append_eq]
      rw [hrec]
      simp [List.enumFrom, isOkTrue, hb, hlen]
    | false =>
      simp only [List.cons_append, filterRun, hb, List.append_eq]
      rw [hrec]
      simp [List.enumFrom, isOkTrue, hb, hlen]

/-- C8: if the filter predicate raises on its (|T|+1)-th invocation (the
element `v` at zero-based index `|T|`, every earlier invocation having
returned a boolean), the downstream receives exactly the passing elements
among the first |T| source elements followed by the raised error, with no
further elements delivered; the predicate is invoked on exactly the first
|T|+1 elements with indices 0..|T| and never afterwards. -/
theorem filter_predicate_fault (p : α → Nat → Except ε Bool) (T R : List α)
    (v : α) (e : ε)
    (hf : p v T.length = Except.error e)
    (hpre : ∀ vi ∈ T.enum, ∃ b, p vi.2 vi.1 = Except.ok b) :
    filterRun p (T ++ v :: R) 0 =
      ((T.enum.filter (fun vi => isOkTrue (p vi.2 vi.1))).map
          (fun vi => FNotif.next vi.2) ++ [FNotif.error e],
       T.enum.map (fun vi => (vi.2, vi.1)) ++ [(v, T.length)]) := by
  have h0 : p v (0 + T.length) = Except.error e := by simpa using hf
  have := filterRun_fault_aux p v e R T 0 h0 (by simpa [List.enum] using hpre)
  simpa [List.enum] using this

end FilterProofs

/-- Witness for `filter_predicate_fault`: a predicate over `Nat` that
raises `5` on its third invocation (index 2), applied to `[10, 20, 30, 40]`. -/
theorem filter_predicate_fault_witness :
    filterRun (fun x i => if i = 2 then (Except.error 5 : Except Nat Bool)
        else Except.ok (decide (15 ≤ x))) ([10, 20] ++ 30 :: [40]) 0 =
      ((([10, 20] : List Nat).enum.filter (fun vi => isOkTrue
            ((fun x i => if i = 2 then (Except.error 5 : Except Nat Bool)
              else Except.ok (decide (15 ≤ x))) vi.2 vi.1))).map
          (fun vi => FNotif.next vi.2) ++ [FNotif.error 5],
       ([10, 20] : List Nat).enum.map (fun vi => (vi.2, vi.1)) ++
         [(30, ([10, 20] : List Nat).length)]) :=
  filter_predicate_fault _ [10, 20] [40] 30 5 rfl (by
    intro vi hvi
    fin_cases hvi
    · exact ⟨false, rfl⟩
    · exact ⟨true, rfl⟩)

section StepProofs

variable {α ε : Type} [DecidableEq α]

/-- C2: when a completion event reaches the coordinator's `_complete` and
the other source has already completed (`_oneComplete` is set), the
coordinator emits `_a.length === 0 && _b.length === 0` — `true` exactly
when both buffers are empty at that moment, `false` otherwise — followed
by completion, and stops, so the check can never run again; when it is the
first of the two completions, the coordinator only records
`_oneComplete = true`, leaves the buffers untouched and emits nothing. -/
theorem sequenceEqual_second_completion_decides
    (cmp : Option (α → α → Except ε Bool)) (s : SEState α) (ev : SEEvent α ε)
    (hstop : s.stopped = false)
    (hev : ev = SEEvent.completeA ∨ ev = SEEvent.completeB) :
    (s.oneComplete = true →
      seStep cmp s ev =
        ⟨{ s with stopped := true },
          [Notif.next (s.a.isEmpty && s.b.isEmpty), Notif.complete], []⟩ ∧
      (Notif.next true ∈ (seStep cmp s ev).out ↔ (s.a = [] ∧ s.b = []))) ∧
    (s.oneComplete = false →
      seStep cmp s ev = ⟨{ s with oneComplete := true }, [], []⟩) ∧
    (∀ evs : List (SEEvent α ε),
      (seRun cmp { s with stopped := true } evs).out = []) := by
  refine ⟨?_, ?_, ?_⟩
  · intro hone
    rcases hev with hev | hev <;> subst hev <;>
      constructor <;>
      simp [seStep, hstop, hone, List.isEmpty_iff]
  · intro hone
    rcases hev with hev | hev <;> subst hev <;>
      simp [seStep, hstop, hone]
  · intro evs
    rw [seRun_stopped cmp evs { s with stopped := true } rfl]

/-- C4: a primary value arriving via `_next` after the other side's
completion was recorded (`_oneComplete`) while `_b` is empty makes the
coordinator emit `false` and complete, stopping (Decided) without
buffering the value and without invoking any comparison; symmetrically
for a secondary value via `nextB` when `_a` is empty. -/
theorem sequenceEqual_value_after_opposite_exhausted
    (cmp : Option (α → α → Except ε Bool)) (s : SEState α) (v : α)
    (hstop : s.stopped = false) (hone : s.oneComplete = true) :
    (s.b = [] →
      seStep cmp s (SEEvent.nextA v) =
        ⟨{ s with stopped := true }, [Notif.next false, Notif.complete], []⟩) ∧
    (s.a = [] →
      seStep cmp s (SEEvent.nextB v) =
        ⟨{ s with stopped := true }, [Notif.next false, Notif.complete], []⟩) := by
  constructor
  · intro hb
    simp [seStep, hstop, hone, hb]
  · intro ha
    simp [seStep, hstop, hone, ha]

/-- C9: an error raised by either source (the primary's `error` or the
secondary's, forwarded by `SequenceEqualCompareToSubscriber._error` into
`parent.error`) is delivered downstream immediately and unmodified as the
only notification of that step, the coordinator stops, and no notification
at all — in particular no boolean — is delivered afterwards. -/
theorem sequenceEqual_source_error_forwarded
    (cmp : Option (α → α → Except ε Bool)) (s : SEState α) (e : ε)
    (ev : SEEvent α ε) (hstop : s.stopped = false)
    (hev : ev = SEEvent.errorA e ∨ ev = SEEvent.errorB e) :
    seStep cmp s ev = ⟨{ s with stopped := true }, [Notif.error e], []⟩ ∧
    (∀ evs : List (SEEvent α ε),
      (seRun cmp { s with stopped := true } evs).out = []) := by
  constructor
  · rcases hev with hev | hev <;> subst hev <;> simp [seStep, hstop]
  · intro evs
    rw [seRun_stopped cmp evs { s with stopped := true } rfl]

end StepProofs

/-- Witness for `sequenceEqual_second_completion_decides`: state with
`_a = [7]`, `_b = []`, `_oneComplete` set, receiving `completeA`. -/
theorem sequenceEqual_second_completion_decides_witness :
    ((⟨[7], [], true, false⟩ : SEState Nat).oneComplete = true →
      seStep (none : Option (Nat → Nat → Except Nat Bool))
          ⟨[7], [], true, false⟩ SEEvent.completeA =
        ⟨{ (⟨[7], [], true, false⟩ : SEState Nat) with stopped := true },
          [Notif.next ((List.isEmpty [7]) && (List.isEmpty ([] : List Nat))),
            Notif.complete], []⟩ ∧
      (Notif.next true ∈ (seStep (none : Option (Nat → Nat → Except Nat Bool))
          ⟨[7], [], true, false⟩ SEEvent.completeA).out ↔
        (([7] : List Nat) = [] ∧ ([] : List Nat) = []))) ∧
    ((⟨[7], [], true, false⟩ : SEState Nat).oneComplete = false →
      seStep (none : Option (Nat → Nat → Except Nat Bool))
          ⟨[7], [], true, false⟩ SEEvent.completeA =
        ⟨{ (⟨[7], [], true, false⟩ : SEState Nat) with oneComplete := true },
          [], []⟩) ∧
    (∀ evs : List (SEEvent Nat Nat),
      (seRun (none : Option (Nat → Nat → Except Nat Bool))
        { (⟨[7], [], true, false⟩ : SEState Nat) with stopped := true } evs).out = []) :=
  sequenceEqual_second_completion_decides none ⟨[7], [], true, false⟩
    SEEvent.completeA rfl (Or.inl rfl)

/-- Witness for `sequenceEqual_value_after_opposite_exhausted`: state with
both buffers empty and `_oneComplete` set, receiving the value `3`. -/
theorem sequenceEqual_value_after_opposite_exhausted_witness :
    ((([] : List Nat) = [] →
      seStep (none : Option (Nat → Nat → Except Nat Bool))
          ⟨[], [], true, false⟩ (SEEvent.nextA 3) =
        ⟨{ (⟨[], [], true, false⟩ : SEState Nat) with stopped := true },
          [Notif.next false, Notif.complete], []⟩) ∧
    (([] : List Nat) = [] →
      seStep (none : Option (Nat → Nat → Except Nat Bool))
          ⟨[], [], true, false⟩ (SEEvent.nextB 3) =
        ⟨{ (⟨[], [], true, false⟩ : SEState Nat) with stopped := true },
          [Notif.next false, Notif.complete], []⟩)) :=
  sequenceEqual_value_after_opposite_exhausted none ⟨[], [], true, false⟩ 3 rfl rfl

/-- Witness for `sequenceEqual_source_error_forwarded`: the secondary
source raises `42` while the coordinator holds `_a = [1]`. -/
theorem sequenceEqual_source_error_forwarded_witness :
    seStep (none : Option (Nat → Nat → Except Nat Bool))
        ⟨[1], [], false, false⟩ (SEEvent.errorB 42) =
      ⟨{ (⟨[1], [], false, false⟩ : SEState Nat) with stopped := true },
        [Notif.error 42], []⟩ ∧
    (∀ evs : List (SEEvent Nat Nat),
      (seRun (none : Option (Nat → Nat → Except Nat Bool))
        { (⟨[1], [], false, false⟩ : SEState Nat) with stopped := true } evs).out = []) :=
  sequenceEqual_source_error_forwarded none ⟨[1], [], false, false⟩ 42
    (SEEvent.errorB 42) rfl (Or.inr rfl)

end Rx
